import Mathlib

/-!
Data Splitter (`Tools/Data Splitter/main.cpp`).

A shallow embedding of the line demultiplexer.  The program asks for a file
name, opens that file for reading and two files for writing, and then runs

    while (in.good()) {
      getline(in, line);  out1 << line << endl;
      getline(in, line);  out2 << line << endl;
    }

The embedding keeps the stream state bits that decide the behaviour of the
loop (`eofbit`, `failbit`), the string variable `line` that both reads share,
and the exact characters inserted into the two output streams.

Modelling conventions:
* the content of a file is the sequence of characters the input stream delivers
  once the three files have been opened;
* `std::string::max_size` is never reached, and the hardware never reports a
  read error (`badbit` stays clear);
* every file is opened under the C string of its name (`c_str()`), which ends at
  the first NUL character of the name;
* opening an output can fail; `out1` and `out2` record what the loop hands to the
  two output streams, and a stream whose open failed delivers none of it to a file
  (`Result.fileA`, `Result.fileB`).
-/

namespace DataSplitter

/-- The line terminator: the delimiter of `getline` and the character written by `endl`. -/
def newline : Char := Char.ofNat 10

/-- A value of the `string` variable `line`. -/
abbrev Line := List Char

/-- The input stream `in`: the characters not yet extracted and the two state bits
the program can set. -/
structure IStream where
  buf : List Char
  eofbit : Bool
  failbit : Bool
deriving DecidableEq, Repr

/-- The member `good()`: no state bit is set. -/
def IStream.good (s : IStream) : Bool := !s.eofbit && !s.failbit

/-- The stream after `in.open(name)`: on success it holds the content of the file
with no bit set, on failure `open` sets `failbit`. -/
def openInput : Option (List Char) → IStream
  | some content => { buf := content, eofbit := false, failbit := false }
  | none => { buf := [], eofbit := false, failbit := true }

/-- The extraction step of `getline`: characters are moved to the string until the
delimiter is met (it is extracted and dropped, the rest of the input is returned) or
the input ends (`none`). -/
def takeLine : List Char → Line × Option (List Char)
  | [] => ([], none)
  | c :: cs =>
    if c = newline then ([], some cs)
    else ((takeLine cs).1.cons c, (takeLine cs).2)

/-- The call `getline(in, line)`.  The sentry fails on a stream that is not good: it
sets `failbit` and the string is left as it was.  Otherwise the string is erased and
filled by `takeLine`; reaching the end of input sets `eofbit`, and `failbit` too when
nothing at all was extracted. -/
def getline (s : IStream) (line : Line) : IStream × Line :=
  if s.good then
    match takeLine s.buf with
    | (l, some rest) => ({ s with buf := rest }, l)
    | (l, none) => ({ buf := [], eofbit := true, failbit := s.failbit || l.isEmpty }, l)
  else ({ s with failbit := true }, line)

/-- The variables of `main` that the loop reads and writes, and a counter of the
iterations entered. -/
structure State where
  inp : IStream
  line : Line
  out1 : List Char
  out2 : List Char
  iters : Nat
deriving DecidableEq, Repr

/-- One execution of the loop body (lines 20 to 23). -/
def body (s : State) : State :=
  let r1 := getline s.inp s.line
  let o1 := s.out1 ++ r1.2 ++ [newline]
  let r2 := getline r1.1 r1.2
  let o2 := s.out2 ++ r2.2 ++ [newline]
  { inp := r2.1, line := r2.2, out1 := o1, out2 := o2, iters := s.iters + 1 }

/-- The loop `while (in.good()) body`, with a bound on the number of tests of the
condition; `none` means the bound was used up before the condition became false. -/
def loop : Nat → State → Option State
  | 0, _ => none
  | n + 1, s => if s.inp.good then loop n (body s) else some s

/-- The state on entry to the loop: `line` is the empty string and nothing is written. -/
def initState (file : Option (List Char)) : State :=
  { inp := openInput file, line := [], out1 := [], out2 := [], iters := 0 }

/-- The character that ends a C string. -/
def nul : Char := Char.ofNat 0

/-- The name a file is opened under: `s.c_str()` read as a C string, the characters of
`s` before its first NUL. -/
def cStr (s : String) : String := String.mk (s.data.takeWhile fun c => c != nul)

/-- What a run leaves behind: the names the two output streams were opened under,
whether each open succeeded, what the loop handed to each stream, the number of loop
iterations and the exit status. -/
structure Result where
  out1Name : String
  out2Name : String
  out1Opened : Bool
  out2Opened : Bool
  out1 : List Char
  out2 : List Char
  iters : Nat
  exitStatus : Int
deriving DecidableEq, Repr

/-- What output A delivers to the file it opened; `none` when the open failed, in which
case no file is created and the stream drops whatever it is handed. -/
def Result.fileA (r : Result) : Option (List Char) :=
  if r.out1Opened then some r.out1 else none

/-- What output B delivers to the file it opened; `none` when the open failed. -/
def Result.fileB (r : Result) : Option (List Char) :=
  if r.out2Opened then some r.out2 else none

/-- The bound given to `loop` by `main`: one more than the length of the input plus
one (see `loop_total` and `loop_mono`: every larger bound gives the same result). -/
def fuelFor (file : Option (List Char)) : Nat :=
  match file with
  | some content => content.length + 2
  | none => 1

/-- The program.  `files name` is what the input stream delivers when the file called
`name` is opened for reading (as the file is once the outputs are opened too), or
`none` when that open fails; `writable name` tells
whether opening `name` for writing succeeds; `filename` is the line read from standard
input.  Lines 15 to 17 open the three files under the C strings of `filename`,
`filename + "_avg.txt"` and `filename + "_max.txt"`; no open is checked. -/
def main (files : String → Option (List Char)) (writable : String → Bool)
    (filename : String) : Option Result :=
  let file := files (cStr filename)
  let n1 := cStr (filename ++ "_avg.txt")
  let n2 := cStr (filename ++ "_max.txt")
  (loop (fuelFor file) (initState file)).map fun s =>
    { out1Name := n1, out2Name := n2, out1Opened := writable n1, out2Opened := writable n2,
      out1 := s.out1, out2 := s.out2, iters := s.iters, exitStatus := 0 }

/-! ## Vocabulary of the specification -/

/-- Lines separated by line terminators, none after the last line. -/
def joinLines : List Line → List Char
  | [] => []
  | [l] => l
  | l :: l2 :: ls => l ++ newline :: joinLines (l2 :: ls)

/-- Lines each followed by a line terminator (the format of the output files). -/
def terminated : List Line → List Char
  | [] => []
  | l :: ls => l ++ newline :: terminated ls

/-- The lines of a content, split at every line terminator. -/
def splitLines : List Char → List Line
  | [] => [[]]
  | c :: cs =>
    if c = newline then [] :: splitLines cs
    else match splitLines cs with
      | [] => [[c]]
      | l :: ls => (c :: l) :: ls

/-- The lines of a file in which every line is followed by a line terminator (the
format of the output files): the pieces before each terminator. -/
def writtenLines (out : List Char) : List Line := (splitLines out).dropLast

/-- The lines at positions `start, start + 2, ...` (`n` of them; wherever it is used
below every one of these positions is smaller than the number of lines). -/
def everyOther (start n : Nat) (ls : List Line) : List Line :=
  (List.range n).map fun i => ls.getD (start + 2 * i) []

/-- Strict alternation `a0, b0, a1, b1, ...` of two sequences. -/
def alternate : List Line → List Line → List Line
  | a :: as, b :: bs => a :: b :: alternate as bs
  | _, _ => []

/-- The lines at even positions. -/
def evens : List Line → List Line
  | [] => []
  | [a] => [a]
  | a :: _ :: t => a :: evens t

/-- The lines at odd positions. -/
def odds : List Line → List Line
  | [] => []
  | [_] => []
  | _ :: b :: t => b :: odds t

/-- No line terminator inside any line. -/
def NoNewline (ls : List Line) : Prop := ∀ l ∈ ls, newline ∉ l

instance (ls : List Line) : Decidable (NoNewline ls) := by
  unfold NoNewline; infer_instance

/-- What output B receives: the lines at odd positions and, when the number of lines
is odd, the last line once more. -/
def outB : List Line → List Line
  | [] => []
  | [a] => [a]
  | _ :: b :: t => b :: outB t

/-- A file system in which exactly one readable file exists. -/
def singleFile (name : String) (content : List Char) : String → Option (List Char) :=
  fun n => if n = name then some content else none

/-- A file system in which no file can be opened. -/
def noFile : String → Option (List Char) := fun _ => none

/-- Every output can be opened. -/
def allWritable : String → Bool := fun _ => true

/-- No output can be opened (a missing directory, a read-only medium). -/
def noneWritable : String → Bool := fun _ => false

/-- The state of the loop after `k` executions of its body. -/
def stateAfter (k : Nat) (file : Option (List Char)) : State :=
  body^[k] (initState file)

/-- The number of line terminators of the input, zero when it cannot be opened. -/
def terminators : Option (List Char) → Nat
  | some content => content.count newline
  | none => 0

/-! ## The extraction step -/

theorem takeLine_append_newline (l rest : List Char) (h : newline ∉ l) :
    takeLine (l ++ newline :: rest) = (l, some rest) := by
  induction l with
  | nil => simp [takeLine]
  | cons c cs ih =>
    have hc : c ≠ newline := fun e => h (by simp [e])
    have hcs : newline ∉ cs := fun e => h (by simp [e])
    simp [takeLine, hc, ih hcs]

theorem takeLine_noNewline (l : List Char) (h : newline ∉ l) :
    takeLine l = (l, none) := by
  induction l with
  | nil => simp [takeLine]
  | cons c cs ih =>
    have hc : c ≠ newline := fun e => h (by simp [e])
    have hcs : newline ∉ cs := fun e => h (by simp [e])
    simp [takeLine, hc, ih hcs]

theorem getline_delim (l rest : List Char) (ln : Line) (h : newline ∉ l) :
    getline ⟨l ++ newline :: rest, false, false⟩ ln = (⟨rest, false, false⟩, l) := by
  simp [getline, IStream.good, takeLine_append_newline l rest h]

theorem getline_last (l : List Char) (ln : Line) (h : newline ∉ l) :
    getline ⟨l, false, false⟩ ln = (⟨[], true, l.isEmpty⟩, l) := by
  simp [getline, IStream.good, takeLine_noNewline l h]

theorem getline_not_good (s : IStream) (ln : Line) (h : s.good = false) :
    getline s ln = ({ s with failbit := true }, ln) := by
  simp [getline, h]

/-! ## The loop -/

theorem loop_mono (n m : Nat) (s r : State) (h : loop n s = some r) (hnm : n ≤ m) :
    loop m s = some r := by
  induction n generalizing m s with
  | zero => simp [loop] at h
  | succ n ih =>
    obtain ⟨m, rfl⟩ : ∃ k, m = k + 1 := ⟨m - 1, by omega⟩
    simp only [loop] at h ⊢
    split
    · rename_i hg
      rw [if_pos hg] at h
      exact ih m (body s) h (by omega)
    · rename_i hg
      rw [if_neg hg] at h
      exact h

theorem body_two (a b rest : List Char) (ln o1 o2 : List Char) (k : Nat)
    (ha : newline ∉ a) (hb : newline ∉ b) :
    body ⟨⟨a ++ newline :: (b ++ newline :: rest), false, false⟩, ln, o1, o2, k⟩ =
      ⟨⟨rest, false, false⟩, b, o1 ++ a ++ [newline], o2 ++ b ++ [newline], k + 1⟩ := by
  simp [body, getline_delim, ha, hb]

theorem body_pair_end (a b : List Char) (ln o1 o2 : List Char) (k : Nat)
    (ha : newline ∉ a) (hb : newline ∉ b) :
    body ⟨⟨a ++ newline :: b, false, false⟩, ln, o1, o2, k⟩ =
      ⟨⟨[], true, b.isEmpty⟩, b, o1 ++ a ++ [newline], o2 ++ b ++ [newline], k + 1⟩ := by
  simp [body, getline_delim, getline_last, ha, hb]

theorem body_single (a : List Char) (ln o1 o2 : List Char) (k : Nat) (ha : newline ∉ a) :
    body ⟨⟨a, false, false⟩, ln, o1, o2, k⟩ =
      ⟨⟨[], true, true⟩, a, o1 ++ a ++ [newline], o2 ++ a ++ [newline], k + 1⟩ := by
  simp [body, getline_last, ha, getline_not_good, IStream.good]

/-- The loop on a content of `lines.length ≥ 1` lines separated by terminators. -/
theorem loop_joinLines (lines : List Line) (hne : lines ≠ []) (hnl : NoNewline lines)
    (ln o1 o2 : List Char) (k : Nat) :
    ∃ fin ln2, fin.good = false ∧
      loop ((lines.length + 1) / 2 + 1) ⟨⟨joinLines lines, false, false⟩, ln, o1, o2, k⟩ =
        some ⟨fin, ln2, o1 ++ terminated (evens lines), o2 ++ terminated (outB lines),
          k + (lines.length + 1) / 2⟩ := by
  induction lines using evens.induct generalizing ln o1 o2 k with
  | case1 => exact absurd rfl hne
  | case2 a =>
    have ha : newline ∉ a := hnl a (by simp)
    refine ⟨⟨[], true, true⟩, a, rfl, ?_⟩
    simp [loop, joinLines, IStream.good, body_single, ha, terminated, evens, outB]
  | case3 a b t ih =>
    have ha : newline ∉ a := hnl a (by simp)
    have hb : newline ∉ b := hnl b (by simp)
    cases t with
    | nil =>
      refine ⟨⟨[], true, b.isEmpty⟩, b, by simp [IStream.good], ?_⟩
      simp [loop, joinLines, IStream.good, body_pair_end, ha, hb, terminated, evens, outB]
    | cons c t =>
      have hnl2 : NoNewline (c :: t) := fun l hl => hnl l (by simp [hl])
      obtain ⟨fin, ln2, hfin, hl⟩ :=
        ih (by simp) hnl2 b (o1 ++ a ++ [newline]) (o2 ++ b ++ [newline]) (k + 1)
      refine ⟨fin, ln2, hfin, ?_⟩
      have e : ((a :: b :: c :: t).length + 1) / 2 + 1 = (((c :: t).length + 1) / 2 + 1) + 1 := by
        simp only [List.length_cons]; omega
      rw [e, loop]
      simp only [IStream.good, Bool.not_false, Bool.and_self, if_true]
      have hj : joinLines (a :: b :: c :: t) = a ++ newline :: (b ++ newline :: joinLines (c :: t)) := by
        simp [joinLines]
      rw [hj, body_two a b _ ln o1 o2 k ha hb, hl]
      simp only [terminated, evens, outB, List.length_cons, List.append_assoc,
        List.singleton_append, List.cons_append]
      congr 2
      omega

theorem length_le_joinLines (lines : List Line) :
    lines.length ≤ (joinLines lines).length + 1 := by
  induction lines using joinLines.induct with
  | case1 => simp
  | case2 l => simp [joinLines]
  | case3 l l2 ls ih =>
    simp only [joinLines, List.length_cons, List.length_append] at ih ⊢
    omega

/-- A run on an input that opens and holds `lines.length ≥ 1` lines separated by
terminators. -/
theorem main_joinLines (files : String → Option (List Char)) (writable : String → Bool)
    (filename : String)
    (lines : List Line) (hf : files (cStr filename) = some (joinLines lines))
    (hne : lines ≠ []) (hnl : NoNewline lines) :
    main files writable filename =
      some ⟨cStr (filename ++ "_avg.txt"), cStr (filename ++ "_max.txt"),
        writable (cStr (filename ++ "_avg.txt")), writable (cStr (filename ++ "_max.txt")),
        terminated (evens lines), terminated (outB lines), (lines.length + 1) / 2, 0⟩ := by
  obtain ⟨fin, ln2, _, hl⟩ := loop_joinLines lines hne hnl [] [] [] 0
  have hfuel : (lines.length + 1) / 2 + 1 ≤ (joinLines lines).length + 2 := by
    have := length_le_joinLines lines
    omega
  have := loop_mono _ _ _ _ hl hfuel
  simp [main, hf, fuelFor, initState, openInput, this]

/-- A run whose input file cannot be opened. -/
theorem main_open_failed (files : String → Option (List Char)) (writable : String → Bool)
    (filename : String) (hf : files (cStr filename) = none) :
    main files writable filename =
      some ⟨cStr (filename ++ "_avg.txt"), cStr (filename ++ "_max.txt"),
        writable (cStr (filename ++ "_avg.txt")), writable (cStr (filename ++ "_max.txt")),
        [], [], 0, 0⟩ := by
  simp [main, hf, fuelFor, initState, openInput, loop, IStream.good]

/-! ## Lines of a content -/

theorem splitLines_ne_nil (c : List Char) : splitLines c ≠ [] := by
  induction c with
  | nil => simp [splitLines]
  | cons x xs ih =>
    simp only [splitLines]
    split
    · simp
    · split <;> simp

theorem splitLines_noNewline (c : List Char) : NoNewline (splitLines c) := by
  induction c with
  | nil => simp [splitLines, NoNewline]
  | cons x xs ih =>
    simp only [splitLines]
    split
    · intro l hl
      rcases List.mem_cons.1 hl with h | h
      · simp [h]
      · exact ih l h
    · rename_i hx
      split
      · intro l hl
        simp only [List.mem_singleton] at hl
        subst hl
        simpa using Ne.symm hx
      · rename_i l ls heq
        intro l2 hl2
        rcases List.mem_cons.1 hl2 with h | h
        · subst h
          have := ih l (by simp [heq])
          simp only [List.mem_cons, not_or]
          exact ⟨Ne.symm hx, this⟩
        · exact ih l2 (by simp [heq, h])

theorem joinLines_cons_cons (l : Line) (ls : List Line) (h : ls ≠ []) :
    joinLines (l :: ls) = l ++ newline :: joinLines ls := by
  cases ls with
  | nil => exact absurd rfl h
  | cons a t => simp [joinLines]

theorem joinLines_splitLines (c : List Char) : joinLines (splitLines c) = c := by
  induction c with
  | nil => simp [splitLines, joinLines]
  | cons x xs ih =>
    simp only [splitLines]
    split
    · rename_i hx
      rw [joinLines_cons_cons _ _ (splitLines_ne_nil xs), ih, hx]
      simp
    · split
      · rename_i heq
        exact absurd heq (splitLines_ne_nil xs)
      · rename_i l ls heq
        rw [heq] at ih
        cases ls with
        | nil =>
          simp only [joinLines] at ih ⊢
          simp [ih]
        | cons a t =>
          simp only [joinLines] at ih ⊢
          simp [← ih]

theorem length_splitLines (c : List Char) :
    (splitLines c).length = c.count newline + 1 := by
  induction c with
  | nil => simp [splitLines]
  | cons x xs ih =>
    simp only [splitLines]
    split
    · rename_i hx
      simp [ih, hx]
    · rename_i hx
      split
      · rename_i heq
        exact absurd heq (splitLines_ne_nil xs)
      · rename_i l ls heq
        rw [heq] at ih
        rw [List.count_cons_of_ne (Ne.symm hx)]
        simpa using ih

theorem splitLines_append_newline (l : Line) (rest : List Char) (h : newline ∉ l) :
    splitLines (l ++ newline :: rest) = l :: splitLines rest := by
  induction l with
  | nil => simp [splitLines]
  | cons c cs ih =>
    have hc : c ≠ newline := fun e => h (by simp [e])
    have hcs : newline ∉ cs := fun e => h (by simp [e])
    simp [splitLines, hc, ih hcs]

theorem splitLines_terminated (ls : List Line) (h : NoNewline ls) :
    splitLines (terminated ls) = ls ++ [[]] := by
  induction ls with
  | nil => simp [terminated, splitLines]
  | cons l t ih =>
    have hl : newline ∉ l := h l (by simp)
    have ht : NoNewline t := fun x hx => h x (by simp [hx])
    simp [terminated, splitLines_append_newline l _ hl, ih ht]

theorem writtenLines_terminated (ls : List Line) (h : NoNewline ls) :
    writtenLines (terminated ls) = ls := by
  simp [writtenLines, splitLines_terminated ls h]

/-! ## Positions -/

theorem everyOther_succ (start n : Nat) (a b : Line) (t : List Line) :
    everyOther start (n + 1) (a :: b :: t) =
      (a :: b :: t).getD start [] :: everyOther start n t := by
  simp only [everyOther, List.range_succ_eq_map, List.map_cons, List.map_map]
  refine congrArg _ (List.map_congr_left ?_)
  intro i _
  have e : start + 2 * (i + 1) = (start + 2 * i) + 1 + 1 := by omega
  simp only [Function.comp, Nat.succ_eq_add_one, e, List.getD_cons_succ]

theorem evens_eq_everyOther (ls : List Line) :
    evens ls = everyOther 0 ((ls.length + 1) / 2) ls := by
  induction ls using evens.induct with
  | case1 => simp [evens, everyOther]
  | case2 a => simp [evens, everyOther, List.range_succ]
  | case3 a b t ih =>
    have e : ((a :: b :: t).length + 1) / 2 = (t.length + 1) / 2 + 1 := by
      simp only [List.length_cons]; omega
    rw [e, everyOther_succ, evens, ih]
    simp

theorem odds_eq_everyOther (ls : List Line) :
    odds ls = everyOther 1 (ls.length / 2) ls := by
  induction ls using odds.induct with
  | case1 => simp [odds, everyOther]
  | case2 a => simp [odds, everyOther]
  | case3 a b t ih =>
    have e : (a :: b :: t).length / 2 = t.length / 2 + 1 := by
      simp only [List.length_cons]; omega
    rw [e, everyOther_succ, odds, ih]
    simp

theorem outB_even (ls : List Line) (h : ls.length % 2 = 0) : outB ls = odds ls := by
  induction ls using odds.induct with
  | case1 => simp [odds, outB]
  | case2 a => simp at h
  | case3 a b t ih =>
    have ht : t.length % 2 = 0 := by simp only [List.length_cons] at h; omega
    simp [outB, odds, ih ht]

theorem outB_odd (ls : List Line) (h : ls.length % 2 = 1) :
    outB ls = odds ls ++ [ls.getD (ls.length - 1) []] := by
  induction ls using odds.induct with
  | case1 => simp at h
  | case2 a => simp [odds, outB]
  | case3 a b t ih =>
    have ht : t.length % 2 = 1 := by simp only [List.length_cons] at h; omega
    have hpos : 0 < t.length := by omega
    have e : (a :: b :: t).length - 1 = (t.length - 1) + 1 + 1 := by
      simp only [List.length_cons]; omega
    rw [e]
    simp [outB, odds, ih ht, List.getD_cons_succ]

theorem noNewline_evens (ls : List Line) (h : NoNewline ls) : NoNewline (evens ls) := by
  induction ls using evens.induct with
  | case1 => simp [evens, NoNewline]
  | case2 a => simpa [evens] using h
  | case3 a b t ih =>
    intro l hl
    simp only [evens, List.mem_cons] at hl
    rcases hl with rfl | hl
    · exact h _ (by simp)
    · exact ih (fun x hx => h x (by simp [hx])) l hl

theorem noNewline_outB (ls : List Line) (h : NoNewline ls) : NoNewline (outB ls) := by
  induction ls using outB.induct with
  | case1 => simp [outB, NoNewline]
  | case2 a => simpa [outB] using h
  | case3 a b t ih =>
    intro l hl
    simp only [outB, List.mem_cons] at hl
    rcases hl with rfl | hl
    · exact h _ (by simp)
    · exact ih (fun x hx => h x (by simp [hx])) l hl

theorem length_evens (ls : List Line) : (evens ls).length = (ls.length + 1) / 2 := by
  simp [evens_eq_everyOther, everyOther]

theorem length_odds (ls : List Line) : (odds ls).length = ls.length / 2 := by
  simp [odds_eq_everyOther, everyOther]

theorem length_outB (ls : List Line) : (outB ls).length = (ls.length + 1) / 2 := by
  induction ls using outB.induct with
  | case1 => simp [outB]
  | case2 a => simp [outB]
  | case3 a b t ih => simp only [outB, List.length_cons, ih]; omega

/-- A loop body entered with a good stream leaves it non-good or has extracted two
line terminators. -/
theorem body_progress (s : State) (h : s.inp.good = true) :
    (body s).inp.good = false ∨
      (body s).inp.buf.count newline + 2 ≤ s.inp.buf.count newline := by
  obtain ⟨⟨buf, e, f⟩, ln, o1, o2, k⟩ := s
  simp only [IStream.good, Bool.and_eq_true, Bool.not_eq_true'] at h
  obtain ⟨he, hf⟩ := h
  subst he hf
  have hsplit := joinLines_splitLines buf
  have hnl := splitLines_noNewline buf
  have hne := splitLines_ne_nil buf
  have hcount := length_splitLines buf
  revert hsplit hnl hne hcount
  generalize splitLines buf = ls
  intro hsplit hnl hne hcount
  subst hsplit
  match ls, hne, hnl, hcount with
  | [a], _, hnl, _ =>
    left
    rw [joinLines, body_single a ln o1 o2 k (hnl a (by simp))]
    rfl
  | [a, b], _, hnl, _ =>
    left
    simp only [joinLines]
    rw [body_pair_end a b ln o1 o2 k (hnl a (by simp)) (hnl b (by simp))]
    rfl
  | a :: b :: c :: t, _, hnl, hcount =>
    right
    have hj : joinLines (a :: b :: c :: t) =
        a ++ newline :: (b ++ newline :: joinLines (c :: t)) := by simp [joinLines]
    have hnl2 : NoNewline (c :: t) := fun l hl => hnl l (by simp [hl])
    have hc2 := length_splitLines (joinLines (c :: t))
    rw [hj] at hcount ⊢
    rw [body_two a b _ ln o1 o2 k (hnl a (by simp)) (hnl b (by simp))]
    simp only [List.count_append, List.count_cons_self, List.length_cons] at hcount ⊢
    have ha : List.count newline a = 0 := List.count_eq_zero.2 (hnl a (by simp))
    have hb : List.count newline b = 0 := List.count_eq_zero.2 (hnl b (by simp))
    omega

theorem splitLines_single (l : Line) (h : newline ∉ l) : splitLines l = [l] := by
  induction l with
  | nil => simp [splitLines]
  | cons c cs ih =>
    have hc : c ≠ newline := fun e => h (by simp [e])
    have hcs : newline ∉ cs := fun e => h (by simp [e])
    simp [splitLines, hc, ih hcs]

/-- The lines of a content are determined by it. -/
theorem splitLines_joinLines (ls : List Line) (hne : ls ≠ []) (h : NoNewline ls) :
    splitLines (joinLines ls) = ls := by
  induction ls using joinLines.induct with
  | case1 => exact absurd rfl hne
  | case2 l => exact splitLines_single l (h l (by simp))
  | case3 l l2 t ih =>
    have hl : newline ∉ l := h l (by simp)
    have ht : NoNewline (l2 :: t) := fun x hx => h x (by simp [hx])
    rw [joinLines, splitLines_append_newline l _ hl, ih (by simp) ht]

/-- A run on any input that opens, in terms of the lines of its content. -/
theorem main_content (files : String → Option (List Char)) (writable : String → Bool)
    (filename : String)
    (content : List Char) (hf : files (cStr filename) = some content) :
    main files writable filename =
      some ⟨cStr (filename ++ "_avg.txt"), cStr (filename ++ "_max.txt"),
        writable (cStr (filename ++ "_avg.txt")), writable (cStr (filename ++ "_max.txt")),
        terminated (evens (splitLines content)), terminated (outB (splitLines content)),
        ((splitLines content).length + 1) / 2, 0⟩ :=
  main_joinLines files writable filename (splitLines content)
    (by rw [joinLines_splitLines]; exact hf) (splitLines_ne_nil content)
    (splitLines_noNewline content)

/-- The loop never uses up the bound `fuelFor`, and larger bounds change nothing. -/
theorem loop_total (file : Option (List Char)) :
    ∃ s, s.inp.good = false ∧ ∀ n, fuelFor file ≤ n → loop n (initState file) = some s := by
  cases file with
  | none =>
    refine ⟨initState none, rfl, fun n hn => ?_⟩
    exact loop_mono 1 n _ _ (by simp [loop, initState, openInput, IStream.good]) hn
  | some content =>
    obtain ⟨fin, ln2, hfin, hl⟩ := loop_joinLines (splitLines content)
      (splitLines_ne_nil content) (splitLines_noNewline content) [] [] [] 0
    rw [joinLines_splitLines] at hl
    refine ⟨_, hfin, fun n hn => loop_mono _ n _ _ hl ?_⟩
    have h1 := length_splitLines content
    have h2 : content.count newline ≤ content.length := List.count_le_length _ _
    simp only [fuelFor] at hn
    omega

theorem last_evens_odd (ls : List Line) (h : ls.length % 2 = 1) :
    (evens ls).getLast? = some (ls.getD (ls.length - 1) []) := by
  induction ls using odds.induct with
  | case1 => simp at h
  | case2 a => simp [evens]
  | case3 a b t ih =>
    have ht : t.length % 2 = 1 := by simp only [List.length_cons] at h; omega
    have hne : evens t ≠ [] := by
      intro e
      have := length_evens t
      rw [e] at this
      simp only [List.length_nil] at this
      omega
    have e : (a :: b :: t).length - 1 = (t.length - 1) + 1 + 1 := by
      simp only [List.length_cons]; omega
    obtain ⟨x, xs, hx⟩ := List.exists_cons_of_ne_nil hne
    rw [e, evens, hx, List.getLast?_cons_cons, ← hx, ih ht]
    simp [List.getD_cons_succ]

/-- The state at the head of the last iteration, for an odd number of lines: only the
last line is left in the stream, which is still good. -/
theorem iterate_body_odd (lines : List Line) (hnl : NoNewline lines)
    (hodd : lines.length % 2 = 1) (ln o1 o2 : List Char) (k : Nat) :
    ∃ ln2 p1 p2 k2,
      body^[lines.length / 2] ⟨⟨joinLines lines, false, false⟩, ln, o1, o2, k⟩ =
        ⟨⟨lines.getD (lines.length - 1) [], false, false⟩, ln2, p1, p2, k2⟩ := by
  induction lines using odds.induct generalizing ln o1 o2 k with
  | case1 => simp at hodd
  | case2 a => exact ⟨ln, o1, o2, k, by simp [joinLines]⟩
  | case3 a b t ih =>
    have ht : t.length % 2 = 1 := by simp only [List.length_cons] at hodd; omega
    have hnl2 : NoNewline t := fun l hl => hnl l (by simp [hl])
    have hne : t ≠ [] := by intro e; simp [e] at ht
    obtain ⟨ln2, p1, p2, k2, h⟩ :=
      ih hnl2 ht b (o1 ++ a ++ [newline]) (o2 ++ b ++ [newline]) (k + 1)
    refine ⟨ln2, p1, p2, k2, ?_⟩
    have e1 : (a :: b :: t).length / 2 = t.length / 2 + 1 := by
      simp only [List.length_cons]; omega
    have e2 : (a :: b :: t).length - 1 = (t.length - 1) + 1 + 1 := by
      simp only [List.length_cons]; omega
    have hj : joinLines (a :: b :: t) = a ++ newline :: (b ++ newline :: joinLines t) := by
      rw [joinLines_cons_cons a _ (by simp), joinLines_cons_cons b _ hne]
    rw [e1, e2, Function.iterate_succ_apply, hj,
      body_two a b _ ln o1 o2 k (hnl a (by simp)) (hnl b (by simp)), h]
    simp [List.getD_cons_succ]

/-! ## Names -/

theorem cStr_eq_self (s : String) (h : nul ∉ s.data) : cStr s = s := by
  have e : s.data.takeWhile (fun c => c != nul) = s.data := by
    rw [List.takeWhile_eq_self_iff]
    intro c hc
    have : c ≠ nul := fun e => h (e ▸ hc)
    simpa using this
  simp only [cStr, e]

theorem cStr_append_suffix (f suffix : String) (hf : nul ∉ f.data)
    (hs : nul ∉ suffix.data) : cStr (f ++ suffix) = f ++ suffix := by
  apply cStr_eq_self
  rw [String.data_append]
  intro h
  rcases List.mem_append.1 h with h | h
  · exact hf h
  · exact hs h

/-! ## The claims -/

/-- C1: an input that opens and holds an even number `N ≥ 2` of lines separated by
line terminators sends the `N / 2` lines at positions `0, 2, ..., N - 2` to output A
and the `N / 2` lines at positions `1, 3, ..., N - 1` to output B, in order, each
followed by a line terminator, and nothing else. -/
theorem even_input_split (files : String → Option (List Char)) (writable : String → Bool)
    (filename : String)
    (lines : List Line) (hopen : files (cStr filename) = some (joinLines lines))
    (hnl : NoNewline lines) (h2 : 2 ≤ lines.length) (heven : lines.length % 2 = 0) :
    ∃ r, main files writable filename = some r ∧
      r.out1 = terminated (everyOther 0 (lines.length / 2) lines) ∧
      r.out2 = terminated (everyOther 1 (lines.length / 2) lines) := by
  have hne : lines ≠ [] := by intro e; simp [e] at h2
  refine ⟨_, main_joinLines files writable filename lines hopen hne hnl, ?_, ?_⟩
  · have e : (lines.length + 1) / 2 = lines.length / 2 := by omega
    simp only [evens_eq_everyOther, e]
  · simp only [outB_even lines heven, odds_eq_everyOther]

theorem even_input_split_witness :
    singleFile "data.txt" (joinLines ["a".toList, "b".toList, "c".toList, "d".toList])
        (cStr "data.txt") = some (joinLines ["a".toList, "b".toList, "c".toList, "d".toList]) ∧
      NoNewline ["a".toList, "b".toList, "c".toList, "d".toList] ∧
      2 ≤ ["a".toList, "b".toList, "c".toList, "d".toList].length ∧
      ["a".toList, "b".toList, "c".toList, "d".toList].length % 2 = 0 ∧
      ∃ r, main (singleFile "data.txt"
            (joinLines ["a".toList, "b".toList, "c".toList, "d".toList])) allWritable "data.txt" = some r ∧
        r.out1 = terminated ["a".toList, "c".toList] ∧
        r.out2 = terminated ["b".toList, "d".toList] :=
  ⟨by decide, by decide, by decide, by decide,
    even_input_split _ allWritable "data.txt" ["a".toList, "b".toList, "c".toList, "d".toList]
      (by decide) (by decide) (by decide) (by decide)⟩

/-- C2: an input that opens and holds an odd number `N` of lines separated by line
terminators sends the `(N + 1) / 2` lines at even positions to output A, in order, and
the `N / 2` lines at odd positions to output B, in order, followed by exactly one more
line `X`; lines `a, b, c, d, e` give A = `a, c, e` and B = `b, d, X`. -/
theorem odd_input_split (files : String → Option (List Char)) (writable : String → Bool)
    (filename : String)
    (lines : List Line) (hopen : files (cStr filename) = some (joinLines lines))
    (hnl : NoNewline lines) (hodd : lines.length % 2 = 1) :
    ∃ r X, main files writable filename = some r ∧ newline ∉ X ∧
      r.out1 = terminated (everyOther 0 ((lines.length + 1) / 2) lines) ∧
      r.out2 = terminated (everyOther 1 (lines.length / 2) lines ++ [X]) := by
  have hne : lines ≠ [] := by intro e; simp [e] at hodd
  refine ⟨_, lines.getD (lines.length - 1) [],
    main_joinLines files writable filename lines hopen hne hnl, ?_, ?_, ?_⟩
  · have hlt : lines.length - 1 < lines.length := by
      have := List.length_pos.2 hne
      omega
    rw [List.getD_eq_getElem _ _ hlt]
    exact hnl _ (List.getElem_mem _)
  · simp only [evens_eq_everyOther]
  · simp only [outB_odd lines hodd, odds_eq_everyOther]

theorem odd_input_split_witness :
    singleFile "data.txt"
        (joinLines ["a".toList, "b".toList, "c".toList, "d".toList, "e".toList])
        (cStr "data.txt") =
        some (joinLines ["a".toList, "b".toList, "c".toList, "d".toList, "e".toList]) ∧
      NoNewline ["a".toList, "b".toList, "c".toList, "d".toList, "e".toList] ∧
      ["a".toList, "b".toList, "c".toList, "d".toList, "e".toList].length % 2 = 1 ∧
      ∃ r X, main (singleFile "data.txt"
            (joinLines ["a".toList, "b".toList, "c".toList, "d".toList, "e".toList])) allWritable
            "data.txt" = some r ∧ newline ∉ X ∧
        r.out1 = terminated ["a".toList, "c".toList, "e".toList] ∧
        r.out2 = terminated (["b".toList, "d".toList] ++ [X]) :=
  ⟨by decide, by decide, by decide,
    odd_input_split _ allWritable "data.txt"
      ["a".toList, "b".toList, "c".toList, "d".toList, "e".toList]
      (by decide) (by decide) (by decide)⟩

/-- C3, at the failing inputs, the lines of the input counted as those of the outputs
are: the file `a`, `b`, each line followed by a terminator, has the two lines `a`, `b`,
and the alternate merge of the two outputs is `a`, `b` and two empty lines; an existing
empty file has no line, and the merge of its outputs is two empty lines.  In both cases
the number of input lines is even, and neither the merge nor the merge without its last
element is the input. -/
theorem round_trip_terminated_input :
    (writtenLines "a\nb\n".toList = ["a".toList, "b".toList] ∧
      main (singleFile "data.txt" "a\nb\n".toList) allWritable "data.txt" =
        some ⟨"data.txt_avg.txt", "data.txt_max.txt", true, true,
          "a\n\n".toList, "b\n\n".toList, 2, 0⟩ ∧
      alternate (writtenLines "a\n\n".toList) (writtenLines "b\n\n".toList) =
        ["a".toList, "b".toList, [], []] ∧
      alternate (writtenLines "a\n\n".toList) (writtenLines "b\n\n".toList) ≠
        writtenLines "a\nb\n".toList ∧
      (alternate (writtenLines "a\n\n".toList) (writtenLines "b\n\n".toList)).dropLast ≠
        writtenLines "a\nb\n".toList) ∧
    (writtenLines [] = [] ∧
      main (singleFile "data.txt" []) allWritable "data.txt" =
        some ⟨"data.txt_avg.txt", "data.txt_max.txt", true, true,
          "\n".toList, "\n".toList, 1, 0⟩ ∧
      alternate (writtenLines "\n".toList) (writtenLines "\n".toList) = [[], []] ∧
      alternate (writtenLines "\n".toList) (writtenLines "\n".toList) ≠ writtenLines [] ∧
      (alternate (writtenLines "\n".toList) (writtenLines "\n".toList)).dropLast ≠
        writtenLines []) := by
  decide

/-- C4, at the failing input: a file holding the single line `a` has one line, and the
run writes two lines, `a` to output A and `a` again to output B. -/
theorem single_line_total :
    (splitLines "a".toList).length = 1 ∧
      main (singleFile "data.txt" "a".toList) allWritable "data.txt" =
        some ⟨"data.txt_avg.txt", "data.txt_max.txt", true, true, "a\n".toList, "a\n".toList, 1, 0⟩ ∧
      (writtenLines "a\n".toList).length + (writtenLines "a\n".toList).length = 2 := by
  decide

/-- C5, at the failing inputs: on the two lines `a`, `b`, each followed by a line
terminator, output A receives `a` and an empty line and output B receives `b` and an
empty line; on an existing empty file each output receives one empty line. -/
theorem terminated_input_extra_lines :
    main (singleFile "data.txt" (terminated ["a".toList, "b".toList])) allWritable "data.txt" =
        some ⟨"data.txt_avg.txt", "data.txt_max.txt", true, true,
          terminated ["a".toList, []], terminated ["b".toList, []], 2, 0⟩ ∧
      main (singleFile "data.txt" (terminated [])) allWritable "data.txt" =
        some ⟨"data.txt_avg.txt", "data.txt_max.txt", true, true,
          terminated [[]], terminated [[]], 1, 0⟩ := by
  decide

/-- C6 as stated fails: with a missing input and a name under which no output can be
opened (here a directory that does not exist), the run creates no output file. -/
theorem missing_input_no_output_created :
    noFile (cStr "nodir/data.txt") = none ∧
      main noFile noneWritable "nodir/data.txt" =
        some ⟨"nodir/data.txt_avg.txt", "nodir/data.txt_max.txt", false, false,
          [], [], 0, 0⟩ ∧
      ¬ ∃ r, main noFile noneWritable "nodir/data.txt" = some r ∧ r.iters = 0 ∧
        r.fileA = some [] ∧ r.fileB = some [] ∧ r.exitStatus = 0 := by
  have h : main noFile noneWritable "nodir/data.txt" =
      some ⟨"nodir/data.txt_avg.txt", "nodir/data.txt_max.txt", false, false,
        [], [], 0, 0⟩ := by decide
  refine ⟨rfl, h, ?_⟩
  rintro ⟨r, hr, _, hA, _⟩
  rw [h] at hr
  cases hr
  simp [Result.fileA] at hA

/-- C6, amended: when the input file cannot be opened, then for every file name the
loop body runs zero times, nothing is handed to either output and the exit status is 0;
each output whose open succeeds is created with no line in it, and an output whose open
fails is not created. -/
theorem missing_input (files : String → Option (List Char)) (writable : String → Bool)
    (filename : String) (hopen : files (cStr filename) = none) :
    ∃ r, main files writable filename = some r ∧ r.iters = 0 ∧ r.out1 = [] ∧ r.out2 = [] ∧
      r.exitStatus = 0 ∧
      r.out1Name = cStr (filename ++ "_avg.txt") ∧
      r.out2Name = cStr (filename ++ "_max.txt") ∧
      r.fileA = (if writable r.out1Name then some [] else none) ∧
      r.fileB = (if writable r.out2Name then some [] else none) :=
  ⟨_, main_open_failed files writable filename hopen, rfl, rfl, rfl, rfl, rfl, rfl, rfl, rfl⟩

theorem missing_input_witness :
    noFile (cStr "data.txt") = none ∧
      ∃ r, main noFile allWritable "data.txt" = some r ∧ r.iters = 0 ∧ r.out1 = [] ∧
        r.out2 = [] ∧ r.exitStatus = 0 ∧
        r.out1Name = cStr ("data.txt" ++ "_avg.txt") ∧
        r.out2Name = cStr ("data.txt" ++ "_max.txt") ∧
        r.fileA = (if allWritable r.out1Name then some [] else none) ∧
        r.fileB = (if allWritable r.out2Name then some [] else none) :=
  ⟨rfl, missing_input noFile allWritable "data.txt" rfl⟩

/-- C7, at the failing input: a run whose input cannot be opened writes nothing to
either output, while a run on an existing empty file writes one line terminator to
each, so the two runs do not produce the same contents. -/
theorem missing_differs_from_empty :
    main noFile allWritable "data.txt" =
        some ⟨"data.txt_avg.txt", "data.txt_max.txt", true, true, [], [], 0, 0⟩ ∧
      main (singleFile "data.txt" []) allWritable "data.txt" =
        some ⟨"data.txt_avg.txt", "data.txt_max.txt", true, true, [newline], [newline], 1, 0⟩ ∧
      main noFile allWritable "data.txt" ≠ main (singleFile "data.txt" []) allWritable "data.txt" := by
  decide

/-- C8 as stated fails: for the file name `data`, NUL, `x` both outputs are opened
under the name `data`, not under the name followed by `_avg.txt` or `_max.txt`. -/
theorem output_names_cut_at_nul :
    main noFile allWritable "data\x00x" =
        some ⟨"data", "data", true, true, [], [], 0, 0⟩ ∧
      ¬ ∃ r, main noFile allWritable "data\x00x" = some r ∧
        r.out1Name = "data\x00x" ++ "_avg.txt" ∧ r.out2Name = "data\x00x" ++ "_max.txt" := by
  have h : main noFile allWritable "data\x00x" =
      some ⟨"data", "data", true, true, [], [], 0, 0⟩ := by decide
  refine ⟨h, ?_⟩
  rintro ⟨r, hr, h1, _⟩
  rw [h] at hr
  cases hr
  revert h1
  decide

/-- C8, amended: for every file name `f` without a NUL character, the empty one
included, the run ends and the two outputs are opened under exactly `f ++ "_avg.txt"`
and `f ++ "_max.txt"`, each being created exactly when its open succeeds. -/
theorem output_names (files : String → Option (List Char)) (writable : String → Bool)
    (f : String) (hnul : nul ∉ f.data) :
    ∃ r, main files writable f = some r ∧
      r.out1Name = f ++ "_avg.txt" ∧ r.out2Name = f ++ "_max.txt" ∧
      r.out1Opened = writable (f ++ "_avg.txt") ∧
      r.out2Opened = writable (f ++ "_max.txt") := by
  obtain ⟨s, _, hs⟩ := loop_total (files (cStr f))
  have e1 : cStr (f ++ "_avg.txt") = f ++ "_avg.txt" :=
    cStr_append_suffix f "_avg.txt" hnul (by decide)
  have e2 : cStr (f ++ "_max.txt") = f ++ "_max.txt" :=
    cStr_append_suffix f "_max.txt" hnul (by decide)
  refine ⟨⟨f ++ "_avg.txt", f ++ "_max.txt", writable (f ++ "_avg.txt"),
    writable (f ++ "_max.txt"), s.out1, s.out2, s.iters, 0⟩, ?_, rfl, rfl, rfl, rfl⟩
  simp only [main, hs _ (le_refl _), Option.map_some', e1, e2]

theorem output_names_witness :
    (nul ∉ "data.txt".data ∧
      ∃ r, main noFile allWritable "data.txt" = some r ∧
        r.out1Name = "data.txt_avg.txt" ∧ r.out2Name = "data.txt_max.txt" ∧
        r.out1Opened = allWritable "data.txt_avg.txt" ∧
        r.out2Opened = allWritable "data.txt_max.txt") ∧
    (nul ∉ "".data ∧
      ∃ r, main noFile allWritable "" = some r ∧
        r.out1Name = "_avg.txt" ∧ r.out2Name = "_max.txt" ∧
        r.out1Opened = allWritable "_avg.txt" ∧
        r.out2Opened = allWritable "_max.txt") :=
  ⟨⟨by decide, output_names noFile allWritable "data.txt" (by decide)⟩,
    ⟨by decide, output_names noFile allWritable "" (by decide)⟩⟩

/-- C9: for an input that opens and holds an odd number `N` of lines separated by line
terminators, the extra last line of output B is the input line at position `N - 1`,
the line just written to output A, so it is empty exactly when that line is.  The last
iteration is entered with a good stream; its first `getline` reads the last line and
sets `eofbit`; its second `getline` meets a stream that is not good, sets `failbit`
and leaves `line` as it was; the loop then stops. -/
theorem stale_last_line (files : String → Option (List Char)) (writable : String → Bool)
    (filename : String)
    (lines : List Line) (hopen : files (cStr filename) = some (joinLines lines))
    (hnl : NoNewline lines) (hodd : lines.length % 2 = 1) :
    (∃ r, main files writable filename = some r ∧
      r.out2 = terminated
        (everyOther 1 (lines.length / 2) lines ++ [lines.getD (lines.length - 1) []]) ∧
      (writtenLines r.out1).getLast? = some (lines.getD (lines.length - 1) []) ∧
      (writtenLines r.out2).getLast? = some (lines.getD (lines.length - 1) []) ∧
      ((writtenLines r.out2).getLast? = some [] ↔ lines.getD (lines.length - 1) [] = []) ∧
      r.iters = lines.length / 2 + 1) ∧
    (stateAfter (lines.length / 2) (files (cStr filename))).inp.good = true ∧
    getline (stateAfter (lines.length / 2) (files (cStr filename))).inp
        (stateAfter (lines.length / 2) (files (cStr filename))).line =
      (⟨[], true, (lines.getD (lines.length - 1) []).isEmpty⟩,
        lines.getD (lines.length - 1) []) ∧
    getline ⟨[], true, (lines.getD (lines.length - 1) []).isEmpty⟩
        (lines.getD (lines.length - 1) []) =
      (⟨[], true, true⟩, lines.getD (lines.length - 1) []) ∧
    (body (stateAfter (lines.length / 2) (files (cStr filename)))).inp.good = false := by
  have hne : lines ≠ [] := by intro e; simp [e] at hodd
  have hlast : newline ∉ lines.getD (lines.length - 1) [] := by
    have hlt : lines.length - 1 < lines.length := by
      have := List.length_pos.2 hne
      omega
    rw [List.getD_eq_getElem _ _ hlt]
    exact hnl _ (List.getElem_mem _)
  obtain ⟨ln2, p1, p2, k2, hit⟩ := iterate_body_odd lines hnl hodd [] [] [] 0
  have hinit : initState (files (cStr filename)) =
      ⟨⟨joinLines lines, false, false⟩, [], [], [], 0⟩ := by
    simp [initState, hopen, openInput]
  have hA : (evens lines).getLast? = some (lines.getD (lines.length - 1) []) := by
    exact last_evens_odd lines hodd
  rw [stateAfter, hinit, hit]
  refine ⟨⟨_, main_joinLines files writable filename lines hopen hne hnl, ?_, ?_, ?_, ?_, ?_⟩,
    rfl, ?_, ?_, ?_⟩
  · simp only [outB_odd lines hodd, odds_eq_everyOther]
  · simp only [writtenLines_terminated _ (noNewline_evens _ hnl), hA]
  · show (writtenLines (terminated (outB lines))).getLast? = _
    rw [writtenLines_terminated _ (noNewline_outB _ hnl), outB_odd lines hodd]
    simp
  · show (writtenLines (terminated (outB lines))).getLast? = _ ↔ _
    rw [writtenLines_terminated _ (noNewline_outB _ hnl), outB_odd lines hodd]
    simp
  · show (lines.length + 1) / 2 = lines.length / 2 + 1
    omega
  · simp only [getline_last _ _ hlast]
  · rw [getline_not_good _ _ (by simp [IStream.good])]
  · rw [body_single _ _ _ _ _ hlast]
    rfl

theorem stale_last_line_witness :
    singleFile "data.txt" (joinLines ["a".toList, "b".toList, "c".toList]) (cStr "data.txt") =
        some (joinLines ["a".toList, "b".toList, "c".toList]) ∧
      NoNewline ["a".toList, "b".toList, "c".toList] ∧
      ["a".toList, "b".toList, "c".toList].length % 2 = 1 ∧
      ∃ r, main (singleFile "data.txt" (joinLines ["a".toList, "b".toList, "c".toList])) allWritable
          "data.txt" = some r ∧
        r.out2 = terminated ["b".toList, "c".toList] ∧
        (writtenLines r.out1).getLast? = some "c".toList ∧
        (writtenLines r.out2).getLast? = some "c".toList ∧
        ((writtenLines r.out2).getLast? = some [] ↔ "c".toList = []) ∧
        r.iters = 2 :=
  ⟨by decide, by decide, by decide,
    (stale_last_line _ allWritable "data.txt" ["a".toList, "b".toList, "c".toList]
      (by decide) (by decide) (by decide)).1⟩

/-- C10: for every input content, and for a failed open, the loop stops: every bound
from `fuelFor` on gives the same final state, the stream is then not good, and the
number of iterations is at most half the number of line terminators of the input plus
one.  Every iteration entered with a good stream leaves the stream not good or
extracts at least one line terminator. -/
theorem loop_terminates (files : String → Option (List Char)) (writable : String → Bool)
    (filename : String) :
    (∃ s, s.inp.good = false ∧
      (∀ n, fuelFor (files (cStr filename)) ≤ n →
        loop n (initState (files (cStr filename))) = some s) ∧
      s.iters ≤ terminators (files (cStr filename)) / 2 + 1 ∧
      ∃ r, main files writable filename = some r ∧ r.iters = s.iters) ∧
    ∀ s : State, s.inp.good = true →
      (body s).inp.good = false ∨
        (body s).inp.buf.count newline + 1 ≤ s.inp.buf.count newline := by
  constructor
  · cases hf : files (cStr filename) with
    | none =>
      refine ⟨initState none, rfl, fun n hn => ?_, by simp [initState], ?_⟩
      · exact loop_mono 1 n _ _ (by simp [loop, initState, openInput, IStream.good]) hn
      · exact ⟨_, main_open_failed files writable filename hf, rfl⟩
    | some content =>
      obtain ⟨fin, ln2, hfin, hl⟩ := loop_joinLines (splitLines content)
        (splitLines_ne_nil content) (splitLines_noNewline content) [] [] [] 0
      rw [joinLines_splitLines] at hl
      have h1 := length_splitLines content
      have h2 : content.count newline ≤ content.length := List.count_le_length _ _
      refine ⟨_, hfin, fun n hn => loop_mono _ n _ _ hl ?_, ?_, ?_⟩
      · simp only [fuelFor] at hn
        omega
      · simp only [terminators, h1]
        omega
      · exact ⟨_, main_content files writable filename content hf, by simp⟩
  · intro s hs
    rcases body_progress s hs with h | h
    · exact Or.inl h
    · exact Or.inr (by omega)

theorem loop_terminates_witness :
    ∃ s, s.inp.good = false ∧
      (∀ n, fuelFor (singleFile "data.txt" "a\nb\nc\n".toList (cStr "data.txt")) ≤ n →
        loop n (initState (singleFile "data.txt" "a\nb\nc\n".toList (cStr "data.txt"))) =
          some s) ∧
      s.iters ≤ terminators (singleFile "data.txt" "a\nb\nc\n".toList (cStr "data.txt")) / 2 + 1 ∧
      ∃ r, main (singleFile "data.txt" "a\nb\nc\n".toList) allWritable "data.txt" = some r ∧
        r.iters = s.iters :=
  (loop_terminates (singleFile "data.txt" "a\nb\nc\n".toList) allWritable "data.txt").1

end DataSplitter
